import Mathlib

/- Verification of the attention / decoding core of translate/models.py.

   Modelling conventions (shallow embedding):
   * A tensor row (one batch element along the time axis) is a `List ℚ`;
     token-id rows are `List ℤ`.  All reductions in the source along the
     time axis (`axis=1` / `axis=-1`) become list operations, so every
     per-row property quantifies over arbitrary rows and therefore over
     every batch/time shape.
   * Learned real-valued quantities (attention energies produced by
     `compute_energy`, decoder logits) are opaque functions of the learned
     parameters; theorems quantify over them as arbitrary lists.
   * `tf.exp` is abstracted by a parameter `expf : ℚ → ℚ`; where a property
     needs it, positivity (the only analytic fact about exp that the code
     relies on) is an explicit hypothesis.
   * Machine floats are modelled by exact rationals, following the usual
     reading of the numerical spec claims up to rounding. -/

set_option maxHeartbeats 1000000

/-- Modelled from the spec: the special token ids are defined in the
vocabulary module (`translate/utils.py`), which is not under src/.  The
spec fixes only their roles: distinct markers for beginning of sequence,
end of sequence, and the keep / deletion / insertion edit operations. -/
def BOS_ID : ℤ := 0

/-- End-of-sequence token id (see `BOS_ID` for the modelling note). -/
def EOS_ID : ℤ := 1

/-- Keep-edit token id (see `BOS_ID` for the modelling note). -/
def KEEP_ID : ℤ := 3

/-- Deletion-edit token id (see `BOS_ID` for the modelling note). -/
def DEL_ID : ℤ := 4

/-- Insertion-edit token id (see `BOS_ID` for the modelling note). -/
def INS_ID : ℤ := 5

/- ------------------------------------------------------------------ -/
/- Generic list lemmas used throughout the development.                -/
/- ------------------------------------------------------------------ -/

theorem sum_map_div (l : List ℚ) (d : ℚ) :
    (l.map (fun x => x / d)).sum = l.sum / d := by
  induction l with
  | nil => simp
  | cons x xs ih => simp [ih, add_div]

theorem getD_range_map {α : Type} (f : ℕ → α) (n i : ℕ) (d : α) :
    ((List.range n).map f).getD i d = if i < n then f i else d := by
  by_cases h : i < n
  · rw [if_pos h, List.getD_eq_getElem _ _ (by simpa using h)]
    simp
  · rw [if_neg h, List.getD_eq_default _ _ (by simpa using Nat.le_of_not_lt h)]

theorem zipWith_eq_range_map {α β γ : Type} (f : α → β → γ) (da : α) (db : β) :
    ∀ (A : List α) (B : List β), A.length = B.length →
      List.zipWith f A B
        = (List.range A.length).map (fun i => f (A.getD i da) (B.getD i db)) := by
  intro A
  induction A with
  | nil => intro B _; simp
  | cons a A ih =>
    intro B h
    cases B with
    | nil => simp at h
    | cons b B =>
      have hlen : A.length = B.length := by simpa using h
      rw [List.zipWith_cons_cons, ih B hlen]
      simp only [List.length_cons, List.range_succ_eq_map, List.map_cons, List.map_map,
        List.getD_cons_zero]
      refine congrArg (List.cons (f a b)) ?_
      apply List.map_congr_left
      intro i _
      simp

theorem sum_range_cut (f : ℕ → ℚ) (len T : ℕ) (h : len ≤ T)
    (h0 : ∀ i, len ≤ i → f i = 0) :
    ((List.range T).map f).sum = ((List.range len).map f).sum := by
  obtain ⟨m, rfl⟩ := Nat.exists_eq_add_of_le h
  rw [List.range_add, List.map_append, List.sum_append, List.map_map]
  have hz : (((List.range m).map fun i => f (len + i))).sum = 0 := by
    apply List.sum_eq_zero
    intro x hx
    obtain ⟨i, _, rfl⟩ := List.mem_map.mp hx
    exact h0 _ (Nat.le_add_right _ _)
  simpa using hz

theorem take_range_map {α : Type} (f : ℕ → α) (len T : ℕ) (h : len ≤ T) :
    (((List.range T).map f).take len) = (List.range len).map f := by
  rw [← List.map_take, List.take_range, Nat.min_eq_left h]

theorem sum_map_const {α : Type} (l : List α) (c : ℚ) :
    (l.map (fun _ => c)).sum = l.length * c := by
  induction l with
  | nil => simp
  | cons x xs ih => simp [ih]; ring

theorem getD_irrel {α : Type} (l : List α) (i : ℕ) (h : i < l.length) (d₁ d₂ : α) :
    l.getD i d₁ = l.getD i d₂ := by
  rw [List.getD_eq_getElem _ _ h, List.getD_eq_getElem _ _ h]

theorem getD_rep_append (k m i : ℕ) :
    ((List.replicate k (1 : ℚ)) ++ List.replicate m 0).getD i 0
      = if i < k then 1 else 0 := by
  induction k generalizing i with
  | zero =>
    simp only [List.replicate, List.nil_append, Nat.not_lt_zero, if_false]
    induction m generalizing i with
    | zero => simp
    | succ m ihm =>
      cases i with
      | zero => simp [List.replicate_succ]
      | succ i => simp [List.replicate_succ, ihm i]
  | succ k ihk =>
    cases i with
    | zero => simp [List.replicate_succ]
    | succ i =>
      simp only [List.replicate_succ, List.cons_append, List.getD_cons_succ, ihk i]
      by_cases h : i < k
      · rw [if_pos h, if_pos (by omega)]
      · rw [if_neg h, if_neg (by omega)]

/- ------------------------------------------------------------------ -/
/- Weighting/masking utility: get_weights (models.py, lines 964-975). -/
/- ------------------------------------------------------------------ -/

/-- Inclusive prefix sums starting from an accumulator: `tf.cumsum(..., axis=1)`
applied to one row (the accumulator of the top-level call is 0). -/
def cumsum_from : ℚ → List ℚ → List ℚ
  | _, [] => []
  | acc, x :: xs => (acc + x) :: cumsum_from (acc + x) xs

/-- One row of the mask computed by the body of `get_weights` before the
`include_first_eos` adjustment:
`weights = to_float(equal(cumsum(to_float(not_equal(sequence, eos_id))), range(1, T+1)))`. -/
def raw_row_weights {α : Type} [DecidableEq α] (xs : List α) (eos : α) : List ℚ :=
  List.zipWith (fun c r => if c = r then (1 : ℚ) else 0)
    (cumsum_from 0 (xs.map (fun x => if x ≠ eos then (1 : ℚ) else 0)))
    ((List.range xs.length).map (fun i : ℕ => (i : ℚ) + 1))

/-- One row of `get_weights(sequence, eos_id, include_first_eos)`:
when `include_first_eos` is true the last column is dropped and a column of
ones is prepended.  `tf.stop_gradient` is the identity on values. -/
def get_weights {α : Type} [DecidableEq α] (xs : List α) (eos : α)
    (include_first_eos : Bool) : List ℚ :=
  let w := raw_row_weights xs eos
  if include_first_eos then 1 :: w.dropLast else w

/-- Reference shape of a `raw_row_weights` row: ones while no end-of-sequence
token has been seen yet (inclusive), zeros from the first one onwards. -/
def ones_until_eos {α : Type} [DecidableEq α] : List α → α → List ℚ
  | [], _ => []
  | x :: xs, e => if x = e then List.replicate (xs.length + 1) 0 else 1 :: ones_until_eos xs e

theorem zip_cumsum_dead {α : Type} [DecidableEq α] (eos : α) :
    ∀ (xs : List α) (a c : ℚ), a + 1 ≤ c →
      List.zipWith (fun cv r => if cv = r then (1 : ℚ) else 0)
        (cumsum_from a (xs.map (fun x => if x ≠ eos then (1 : ℚ) else 0)))
        ((List.range xs.length).map (fun i : ℕ => c + (i : ℚ) + 1))
      = List.replicate xs.length 0 := by
  intro xs
  induction xs with
  | nil => intro a c _; simp
  | cons x t ih =>
    intro a c h
    have hv : (if x ≠ eos then (1 : ℚ) else 0) ≤ 1 := by split <;> norm_num
    simp only [List.map_cons, cumsum_from, List.length_cons, List.range_succ_eq_map,
      List.map_cons, List.map_map, List.zipWith_cons_cons, Nat.cast_zero,
      List.replicate_succ]
    refine List.cons_eq_cons.mpr ⟨?_, ?_⟩
    · rw [if_neg]
      intro hcontra
      have hle : a + (if x ≠ eos then (1 : ℚ) else 0) ≤ c := le_trans (by linarith) h
      rw [hcontra] at hle
      linarith
    · have heq : ((List.range t.length).map fun i : ℕ => c + ((Nat.succ i : ℕ) : ℚ) + 1)
          = (List.range t.length).map fun i : ℕ => (c + 1) + (i : ℚ) + 1 := by
        apply List.map_congr_left
        intro i _
        push_cast
        ring
      rw [show ((fun i : ℕ => c + (i : ℚ) + 1) ∘ Nat.succ)
            = fun i : ℕ => c + ((Nat.succ i : ℕ) : ℚ) + 1 from rfl, heq]
      exact ih (a + _) (c + 1) (by linarith)

theorem zip_cumsum_main {α : Type} [DecidableEq α] (eos : α) :
    ∀ (xs : List α) (c : ℚ),
      List.zipWith (fun cv r => if cv = r then (1 : ℚ) else 0)
        (cumsum_from c (xs.map (fun x => if x ≠ eos then (1 : ℚ) else 0)))
        ((List.range xs.length).map (fun i : ℕ => c + (i : ℚ) + 1))
      = ones_until_eos xs eos := by
  intro xs
  induction xs with
  | nil => intro c; simp [ones_until_eos]
  | cons x t ih =>
    intro c
    simp only [List.map_cons, cumsum_from, List.length_cons, List.range_succ_eq_map,
      List.map_cons, List.map_map, List.zipWith_cons_cons, Nat.cast_zero, ones_until_eos]
    have heq : ((List.range t.length).map fun i : ℕ => c + ((Nat.succ i : ℕ) : ℚ) + 1)
        = (List.range t.length).map fun i : ℕ => (c + 1) + (i : ℚ) + 1 := by
      apply List.map_congr_left
      intro i _
      push_cast
      ring
    rw [show ((fun i : ℕ => c + (i : ℚ) + 1) ∘ Nat.succ)
          = fun i : ℕ => c + ((Nat.succ i : ℕ) : ℚ) + 1 from rfl, heq]
    by_cases hx : x = eos
    · rw [if_pos hx]
      simp only [hx, ne_eq, not_true_eq_false, if_false, add_zero]
      rw [List.replicate_succ]
      refine List.cons_eq_cons.mpr ⟨?_, ?_⟩
      · rw [if_neg]
        intro hcontra
        linarith
      · exact zip_cumsum_dead eos t c (c + 1) (by linarith)
    · rw [if_neg hx]
      simp only [ne_eq, hx, not_false_eq_true, if_true]
      refine List.cons_eq_cons.mpr ⟨?_, ?_⟩
      · rw [if_pos (by ring)]
      · exact ih (c + 1)

theorem raw_eq_ones {α : Type} [DecidableEq α] (xs : List α) (eos : α) :
    raw_row_weights xs eos = ones_until_eos xs eos := by
  have h := zip_cumsum_main eos xs 0
  rw [← h]
  unfold raw_row_weights
  refine congrArg _ ?_
  apply List.map_congr_left
  intro i _
  ring

theorem ones_until_eos_length {α : Type} [DecidableEq α] (xs : List α) (eos : α) :
    (ones_until_eos xs eos).length = xs.length := by
  induction xs with
  | nil => simp [ones_until_eos]
  | cons x t ih =>
    by_cases hx : x = eos <;> simp [ones_until_eos, hx, ih]

theorem ones_structure {α : Type} [DecidableEq α] (eos : α) :
    ∀ xs : List α, ∃ k, k ≤ xs.length ∧
      ones_until_eos xs eos = List.replicate k 1 ++ List.replicate (xs.length - k) 0 := by
  intro xs
  induction xs with
  | nil => exact ⟨0, by simp [ones_until_eos]⟩
  | cons x t ih =>
    by_cases hx : x = eos
    · exact ⟨0, by simp [ones_until_eos, hx]⟩
    · obtain ⟨k, hk, hshape⟩ := ih
      refine ⟨k + 1, by simpa using Nat.succ_le_succ hk, ?_⟩
      simp only [ones_until_eos, hx, if_false, hshape, List.length_cons]
      rw [List.replicate_succ]
      have hsub : t.length + 1 - (k + 1) = t.length - k := by omega
      rw [hsub]
      simp

theorem ones_of_first {α : Type} [DecidableEq α] (eos : α) :
    ∀ (xs : List α) (k : ℕ), k < xs.length →
      (∀ i, i < k → xs.getD i eos ≠ eos) → xs.getD k eos = eos →
      ones_until_eos xs eos = List.replicate k 1 ++ List.replicate (xs.length - k) 0 := by
  intro xs
  induction xs with
  | nil => intro k hk _ _; simp at hk
  | cons x t ih =>
    intro k hk hne hk_eos
    cases k with
    | zero =>
      simp only [List.getD_cons_zero] at hk_eos
      simp [ones_until_eos, hk_eos]
    | succ k =>
      have hx : x ≠ eos := by
        have := hne 0 (Nat.succ_pos k)
        simpa using this
      have htail := ih k (by simpa using Nat.lt_of_succ_lt_succ hk)
        (fun i hi => by simpa using hne (i + 1) (Nat.succ_lt_succ hi))
        (by simpa using hk_eos)
      simp only [ones_until_eos, hx, if_false, htail, List.length_cons]
      rw [List.replicate_succ, Nat.succ_sub_succ]
      simp

theorem ones_no_eos {α : Type} [DecidableEq α] (eos : α) :
    ∀ xs : List α, eos ∉ xs → ones_until_eos xs eos = List.replicate xs.length 1 := by
  intro xs
  induction xs with
  | nil => intro _; simp [ones_until_eos]
  | cons x t ih =>
    intro hmem
    have hx : x ≠ eos := fun hcontra => hmem (hcontra ▸ List.mem_cons_self x t)
    have ht : eos ∉ t := fun hcontra => hmem (List.mem_cons_of_mem _ hcontra)
    simp [ones_until_eos, hx, ih ht, List.replicate_succ]

theorem dropLast_ones_zeros (k m : ℕ) (hm : 1 ≤ m) :
    (List.replicate k (1 : ℚ) ++ List.replicate m 0).dropLast
      = List.replicate k 1 ++ List.replicate (m - 1) 0 := by
  obtain ⟨j, rfl⟩ : ∃ j, m = j + 1 := ⟨m - 1, by omega⟩
  rw [List.replicate_succ' j (0 : ℚ), ← List.append_assoc, List.dropLast_concat]
  simp

theorem dropLast_rep_ones (k : ℕ) :
    (List.replicate (k + 1) (1 : ℚ)).dropLast = List.replicate k 1 := by
  rw [List.replicate_succ' k (1 : ℚ), List.dropLast_concat]

theorem get_weights_false_eq {α : Type} [DecidableEq α] (xs : List α) (eos : α) :
    get_weights xs eos false = ones_until_eos xs eos := by
  simp [get_weights, raw_eq_ones]

theorem get_weights_true_eq {α : Type} [DecidableEq α] (xs : List α) (eos : α) :
    get_weights xs eos true = 1 :: (ones_until_eos xs eos).dropLast := by
  simp [get_weights, raw_eq_ones]

/-- Every row produced by `get_weights` (for either flag value) is a block of
ones followed by a block of zeros. -/
theorem get_weights_shape {α : Type} [DecidableEq α] (xs : List α) (eos : α) (b : Bool) :
    ∃ k m, get_weights xs eos b = List.replicate k 1 ++ List.replicate m 0 := by
  obtain ⟨k, hk, hshape⟩ := ones_structure eos xs
  cases b
  · exact ⟨k, xs.length - k, by rw [get_weights_false_eq, hshape]⟩
  · rw [get_weights_true_eq, hshape]
    by_cases hm : 1 ≤ xs.length - k
    · refine ⟨k + 1, xs.length - k - 1, ?_⟩
      rw [dropLast_ones_zeros _ _ hm, List.replicate_succ]
      simp
    · have hm0 : xs.length - k = 0 := by omega
      rw [hm0, List.replicate_zero, List.append_nil]
      cases k with
      | zero => exact ⟨1, 0, by simp⟩
      | succ j =>
        refine ⟨j + 1, 0, ?_⟩
        rw [dropLast_rep_ones j, List.replicate_zero, List.append_nil,
          List.replicate_succ]

/-- Index of the first occurrence of the end-of-sequence token in a row
(row length if there is none); used to state the mask claims. -/
def first_eos {α : Type} [DecidableEq α] : List α → α → ℕ
  | [], _ => 0
  | x :: xs, e => if x = e then 0 else first_eos xs e + 1

theorem first_eos_spec {α : Type} [DecidableEq α] (eos : α) :
    ∀ xs : List α, eos ∈ xs →
      first_eos xs eos < xs.length ∧ xs.getD (first_eos xs eos) eos = eos ∧
      ∀ i, i < first_eos xs eos → xs.getD i eos ≠ eos := by
  intro xs
  induction xs with
  | nil => intro h; simp at h
  | cons x t ih =>
    intro hmem
    by_cases hx : x = eos
    · refine ⟨by simp [first_eos, hx], by simp [first_eos, hx], ?_⟩
      intro i hi
      simp [first_eos, hx] at hi
    · have hmem_t : eos ∈ t := by
        rcases List.mem_cons.mp hmem with h | h
        · exact absurd h.symm hx
        · exact h
      obtain ⟨h1, h2, h3⟩ := ih hmem_t
      refine ⟨?_, ?_, ?_⟩
      · simp only [first_eos, hx, if_false, List.length_cons]
        omega
      · simpa [first_eos, hx] using h2
      · intro i hi
        simp only [first_eos, hx, if_false] at hi
        cases i with
        | zero => simpa using hx
        | succ i => simpa using h3 i (by omega)

/- ------------------------------------------------------------------ -/
/- Attention variants (models.py, lines 316-452) and softmax helper.   -/
/- ------------------------------------------------------------------ -/

/-- One row of `tf.sequence_mask(encoder_input_length, maxlen=T)` cast to
float: 1 at positions below the valid length, 0 elsewhere. -/
def seq_mask (len T : ℕ) : List ℚ :=
  (List.range T).map (fun i => if i < len then (1 : ℚ) else 0)

/-- `tf.reduce_max` over one row (rows in the source are non-empty). -/
def list_max : List ℚ → ℚ
  | [] => 0
  | [x] => x
  | x :: y :: xs => max x (list_max (y :: xs))

theorem le_list_max : ∀ (l : List ℚ) (x : ℚ), x ∈ l → x ≤ list_max l := by
  intro l
  induction l with
  | nil => intro x hx; simp at hx
  | cons a t ih =>
    intro x hx
    cases t with
    | nil =>
      have : x = a := by simpa using hx
      simp [list_max, this]
    | cons b u =>
      rcases List.mem_cons.mp hx with h | h
      · rw [h]; exact le_max_left _ _
      · exact le_trans (ih x h) (le_max_right _ _)

/-- `e -= tf.reduce_max(e, axis=1, keep_dims=True)` applied to one row of
energies (models.py line 330). -/
def stabilize (e : List ℚ) : List ℚ := e.map (fun x => x - list_max e)

/-- One row of `exp = tf.exp(T * e) * mask` in `global_attention`
(models.py line 334), for stabilized energies. -/
def global_attention_exp (expf : ℚ → ℚ) (temp : ℚ) (e : List ℚ) (len : ℕ) : List ℚ :=
  List.zipWith (fun x m => expf (temp * x) * m) (stabilize e) (seq_mask len e.length)

/-- Denominator of the division in `global_attention`
(`tf.reduce_sum(exp, axis=-1)`, models.py line 335): no clipping and no
epsilon is applied to it in the source. -/
def global_attention_denom (expf : ℚ → ℚ) (temp : ℚ) (e : List ℚ) (len : ℕ) : ℚ :=
  (global_attention_exp expf temp e len).sum

/-- One row of the attention weights returned by `global_attention`
(models.py line 335): `weights = exp / tf.reduce_sum(exp, axis=-1)`. -/
def global_attention_weights (expf : ℚ → ℚ) (temp : ℚ) (e : List ℚ) (len : ℕ) : List ℚ :=
  (global_attention_exp expf temp e len).map
    (fun x => x / (global_attention_exp expf temp e len).sum)

/-- One row of the weights returned by `no_attention` (models.py line 344):
`tf.zeros(shape=[batch_size, tf.shape(hidden_states)[1]])`. -/
def no_attention_weights (T : ℕ) : List ℚ := List.replicate T 0

/-- One row of the weights returned by `average_attention`
(models.py line 352): `weights = to_float(mask) / lengths`. -/
def average_attention_weights (len T : ℕ) : List ℚ :=
  (seq_mask len T).map (fun m => m / (len : ℚ))

/-- The divisor used by `average_attention` (the valid length cast to
float); the source applies no epsilon to it. -/
def average_attention_denom (len : ℕ) : ℚ := (len : ℚ)

/-- One row of `tf.one_hot(idx, depth=T)` (all zeros when the index is
negative or at least `T`, matching the TensorFlow semantics). -/
def one_hot (idx : ℤ) (T : ℕ) : List ℚ :=
  (List.range T).map (fun i : ℕ => if (i : ℤ) = idx then (1 : ℚ) else 0)

/-- One row of the weights returned by `last_state_attention`
(models.py line 358): `tf.one_hot(encoder_input_length - 1, T)`. -/
def last_state_attention_weights (len T : ℕ) : List ℚ :=
  one_hot ((len : ℤ) - 1) T

/-- Truncation toward zero, the semantics of the float-to-int cast
`tf.to_int32`. -/
def to_int32 (q : ℚ) : ℤ := if 0 ≤ q then ⌊q⌋ else ⌈q⌉

/-- One row of the weights returned by `local_attention` when an aligned
position is supplied (`pred_edits` scenario, models.py lines 378-401; both
the windowed and the plain branch return these weights):
`pos = min(pos, encoder_input_length - 1)` followed by
`one_hot(to_int32(squeeze(pos)), depth=attn_length)`. -/
def local_supervised_weights (p : ℚ) (len T : ℕ) : List ℚ :=
  one_hot (to_int32 (min p ((len : ℚ) - 1))) T

/-- `clip_by_value` on scalars. -/
def clip_by_value (x lo hi : ℚ) : ℚ := min (max x lo) hi

/-- Denominator of the stand-alone `softmax` helper (models.py line 933):
the masked exponential sum clipped to `[10e-37, 10e+37]`. -/
def softmax_denom (expf : ℚ → ℚ) (logits : List ℚ) (mask : Option (List ℚ)) : ℚ :=
  let ex := logits.map expf
  let ex := match mask with
    | some m => List.zipWith (fun a b => a * b) ex m
    | none => ex
  clip_by_value ex.sum (10 / 10 ^ 37) (10 * 10 ^ 37)

/-- The stand-alone `softmax` helper (models.py lines 928-933): exponentials
(without max subtraction), optional multiplicative mask, division by the
clipped sum. -/
def softmax_clipped (expf : ℚ → ℚ) (logits : List ℚ) (mask : Option (List ℚ)) : List ℚ :=
  let ex := logits.map expf
  let ex := match mask with
    | some m => List.zipWith (fun a b => a * b) ex m
    | none => ex
  ex.map (fun x => x / softmax_denom expf logits mask)

/-- One row of the weights returned by `local_attention` in learned-position
mode (models.py lines 402-436): position predicted from the state (the
sigmoid output is abstracted as `sig`), hard window mask, clipped softmax of
the energies, then a truncated-Gaussian factor; the source does not
renormalize afterwards (the renormalization is commented out at line 434). -/
def local_learned_weights (expf : ℚ → ℚ) (e : List ℚ) (len window : ℕ) (sig : ℚ) : List ℚ :=
  let T := e.length
  let p : ℚ := min ((⌊(len : ℚ) * sig⌋ : ℤ) : ℚ) ((len : ℚ) - 1)
  let mask := (List.range T).map
    (fun i => if p - window ≤ (i : ℚ) ∧ (i : ℚ) ≤ p + window ∧ (i : ℚ) < (len : ℚ)
      then (1 : ℚ) else 0)
  let w := softmax_clipped expf e (some mask)
  List.zipWith (fun wi i => wi * expf (-(((i : ℚ) - p) ^ 2) / (2 * ((window : ℚ) / 2) ^ 2)))
    w (List.range T)

/-- The attention dispatcher (models.py lines 441-452): the variant is chosen
by `encoder.attention_type`, with `global_attention` as the default for
unrecognized values.  `e` is the row of energies `compute_energy` would
produce (an opaque function of the learned parameters), and its length is
the time dimension; `pos` is the externally supplied aligned position
(present exactly in the `pred_edits` scenario). -/
def attention_weights (attention_type : String) (expf : ℚ → ℚ) (temp : ℚ)
    (e : List ℚ) (len : ℕ) (pos : Option ℚ) (window : ℕ) (sig : ℚ) : List ℚ :=
  if attention_type = "local" then
    match pos with
    | some p => local_supervised_weights p len e.length
    | none => local_learned_weights expf e len window sig
  else if attention_type = "none" then no_attention_weights e.length
  else if attention_type = "average" then average_attention_weights len e.length
  else if attention_type = "last_state" then last_state_attention_weights len e.length
  else global_attention_weights expf temp e len

theorem global_exp_eq (expf : ℚ → ℚ) (temp : ℚ) (e : List ℚ) (len : ℕ) :
    global_attention_exp expf temp e len
      = (List.range e.length).map
          (fun i => expf (temp * (stabilize e).getD i 0) * (if i < len then (1 : ℚ) else 0)) := by
  unfold global_attention_exp
  rw [zipWith_eq_range_map _ 0 0 _ _ (by simp [stabilize, seq_mask])]
  have hlen : (stabilize e).length = e.length := by simp [stabilize]
  rw [hlen]
  apply List.map_congr_left
  intro i hi
  have hiT : i < e.length := List.mem_range.mp hi
  rw [seq_mask, getD_range_map, if_pos hiT]

theorem global_rows_core (expf : ℚ → ℚ) (hexp : ∀ x, 0 < expf x) (temp : ℚ)
    (e : List ℚ) (len : ℕ) (h1 : 1 ≤ len) (h2 : len ≤ e.length) :
    ((global_attention_weights expf temp e len).take len).sum = 1 ∧
    ∀ i, len ≤ i → (global_attention_weights expf temp e len).getD i 0 = 0 := by
  set G : ℕ → ℚ :=
    fun i => expf (temp * (stabilize e).getD i 0) * (if i < len then (1 : ℚ) else 0) with hG
  have hexp_eq : global_attention_exp expf temp e len = (List.range e.length).map G :=
    global_exp_eq expf temp e len
  have hGzero : ∀ i, len ≤ i → G i = 0 := by
    intro i hi
    simp [hG, Nat.not_lt.mpr hi]
  have hsum_cut : ((List.range e.length).map G).sum = ((List.range len).map G).sum :=
    sum_range_cut G len e.length h2 hGzero
  have hpos : 0 < ((List.range len).map G).sum := by
    apply List.sum_pos
    · intro x hx
      obtain ⟨i, hi, rfl⟩ := List.mem_map.mp hx
      have hilen : i < len := List.mem_range.mp hi
      simp only [hG, if_pos hilen, mul_one]
      exact hexp _
    · simp only [ne_eq, List.map_eq_nil_iff, List.range_eq_nil]
      omega
  constructor
  · unfold global_attention_weights
    simp only [hexp_eq, hsum_cut]
    rw [← List.map_take, take_range_map G len e.length h2, sum_map_div,
      div_self (ne_of_gt hpos)]
  · intro i hi
    unfold global_attention_weights
    simp only [hexp_eq, hsum_cut]
    rw [List.map_map, getD_range_map]
    by_cases hiT : i < e.length
    · rw [if_pos hiT]
      show G i / ((List.range len).map G).sum = 0
      rw [hGzero i hi, zero_div]
    · rw [if_neg hiT]

theorem sum_one_hot (T : ℕ) (k : ℤ) :
    (one_hot k T).sum = if 0 ≤ k ∧ k < (T : ℤ) then 1 else 0 := by
  induction T with
  | zero =>
    simp only [one_hot, List.range_zero, List.map_nil, List.sum_nil]
    rw [if_neg]
    rintro ⟨ha, hb⟩
    omega
  | succ n ih =>
    rw [one_hot, List.range_succ, List.map_append, List.sum_append,
      show ((List.range n).map fun i => if ((i : ℕ) : ℤ) = k then (1 : ℚ) else 0)
        = one_hot k n from rfl, ih]
    simp only [List.map_cons, List.map_nil, List.sum_cons, List.sum_nil, add_zero]
    by_cases hk : ((n : ℕ) : ℤ) = k
    · rw [if_pos hk, if_neg (by omega), if_pos (by omega)]
      norm_num
    · rw [if_neg hk]
      by_cases h0 : 0 ≤ k
      · by_cases hlt : k < (n : ℤ)
        · rw [if_pos ⟨h0, hlt⟩, if_pos ⟨h0, by omega⟩]
          norm_num
        · rw [if_neg (fun h => hlt h.2), if_neg (fun h => by omega)]
          norm_num
      · rw [if_neg (fun h => h0 h.1), if_neg (fun h => h0 h.1)]
        norm_num

theorem one_hot_rows_core (k : ℤ) (len T : ℕ) (h0 : 0 ≤ k) (h1 : k < (len : ℤ))
    (h2 : len ≤ T) :
    ((one_hot k T).take len).sum = 1 ∧
    ∀ i, len ≤ i → (one_hot k T).getD i 0 = 0 := by
  constructor
  · unfold one_hot
    rw [take_range_map _ len T h2,
      show ((List.range len).map fun i => if ((i : ℕ) : ℤ) = k then (1 : ℚ) else 0)
        = one_hot k len from rfl, sum_one_hot, if_pos ⟨h0, h1⟩]
  · intro i hi
    unfold one_hot
    rw [getD_range_map]
    by_cases hiT : i < T
    · rw [if_pos hiT, if_neg (by omega)]
    · rw [if_neg hiT]

theorem last_state_rows_core (len T : ℕ) (h1 : 1 ≤ len) (h2 : len ≤ T) :
    ((last_state_attention_weights len T).take len).sum = 1 ∧
    ∀ i, len ≤ i → (last_state_attention_weights len T).getD i 0 = 0 := by
  unfold last_state_attention_weights
  exact one_hot_rows_core _ len T (by omega) (by omega) h2

theorem average_rows_core (len T : ℕ) (h1 : 1 ≤ len) (h2 : len ≤ T) :
    ((average_attention_weights len T).take len).sum = 1 ∧
    ∀ i, len ≤ i → (average_attention_weights len T).getD i 0 = 0 := by
  have heq : average_attention_weights len T
      = (List.range T).map (fun i => (if i < len then (1 : ℚ) else 0) / (len : ℚ)) := by
    unfold average_attention_weights seq_mask
    rw [List.map_map]
    rfl
  have hlen0 : ((len : ℚ)) ≠ 0 := by
    exact_mod_cast (by omega : (len : ℤ) ≠ 0)
  constructor
  · rw [heq, take_range_map _ len T h2]
    have hcongr : ((List.range len).map fun i => (if i < len then (1 : ℚ) else 0) / (len : ℚ))
        = (List.range len).map fun _ => 1 / (len : ℚ) := by
      apply List.map_congr_left
      intro i hi
      rw [if_pos (List.mem_range.mp hi)]
    rw [hcongr, sum_map_const, List.length_range, mul_one_div, div_self hlen0]
  · intro i hi
    rw [heq, getD_range_map]
    by_cases hiT : i < T
    · rw [if_pos hiT, if_neg (Nat.not_lt.mpr hi), zero_div]
    · rw [if_neg hiT]

theorem local_pos_rows_core (p : ℚ) (len T : ℕ) (hp : 0 ≤ p) (h1 : 1 ≤ len)
    (h2 : len ≤ T) :
    ((local_supervised_weights p len T).take len).sum = 1 ∧
    ∀ i, len ≤ i → (local_supervised_weights p len T).getD i 0 = 0 := by
  unfold local_supervised_weights
  have hlen1 : (1 : ℚ) ≤ (len : ℚ) := by exact_mod_cast h1
  have hq0 : (0 : ℚ) ≤ min p ((len : ℚ) - 1) := le_min hp (by linarith)
  have hidx : to_int32 (min p ((len : ℚ) - 1)) = ⌊min p ((len : ℚ) - 1)⌋ := by
    rw [to_int32, if_pos hq0]
  have hfl0 : 0 ≤ ⌊min p ((len : ℚ) - 1)⌋ := Int.floor_nonneg.mpr hq0
  have hfl_lt : ⌊min p ((len : ℚ) - 1)⌋ < (len : ℤ) := by
    have hle : min p ((len : ℚ) - 1) ≤ (len : ℚ) - 1 := min_le_right _ _
    have hcast : ⌊(len : ℚ) - 1⌋ = (len : ℤ) - 1 := by
      rw [show ((len : ℚ) - 1) = (((len : ℤ) - 1 : ℤ) : ℚ) by push_cast; ring,
        Int.floor_intCast]
    have hmono := Int.floor_le_floor hle
    rw [hcast] at hmono
    omega
  rw [hidx]
  exact one_hot_rows_core _ len T hfl0 hfl_lt h2

theorem stabilize_nonpos (e : List ℚ) : ∀ x ∈ stabilize e, x ≤ 0 := by
  intro x hx
  obtain ⟨y, hy, rfl⟩ := List.mem_map.mp hx
  have := le_list_max e y hy
  linarith

theorem clip_pos_bounds (x : ℚ) :
    10 / 10 ^ 37 ≤ clip_by_value x (10 / 10 ^ 37) (10 * 10 ^ 37) ∧
    clip_by_value x (10 / 10 ^ 37) (10 * 10 ^ 37) ≤ 10 * 10 ^ 37 ∧
    clip_by_value x (10 / 10 ^ 37) (10 * 10 ^ 37) ≠ 0 := by
  unfold clip_by_value
  have hlohi : (10 : ℚ) / 10 ^ 37 ≤ 10 * 10 ^ 37 := by norm_num
  have hlo_pos : (0 : ℚ) < 10 / 10 ^ 37 := by norm_num
  have hlo_le : 10 / 10 ^ 37 ≤ min (max x (10 / 10 ^ 37)) (10 * 10 ^ 37) :=
    le_min (le_max_right _ _) hlohi
  exact ⟨hlo_le, min_le_right _ _, ne_of_gt (lt_of_lt_of_le hlo_pos hlo_le)⟩

theorem softmax_denom_bounds (expf : ℚ → ℚ) (logits : List ℚ) (mask : Option (List ℚ)) :
    10 / 10 ^ 37 ≤ softmax_denom expf logits mask ∧
    softmax_denom expf logits mask ≤ 10 * 10 ^ 37 ∧
    softmax_denom expf logits mask ≠ 0 := by
  unfold softmax_denom
  cases mask with
  | none => exact clip_pos_bounds _
  | some m => exact clip_pos_bounds _

theorem global_denom_zero_len (expf : ℚ → ℚ) (temp : ℚ) (e : List ℚ) :
    global_attention_denom expf temp e 0 = 0 := by
  unfold global_attention_denom
  rw [global_exp_eq]
  apply List.sum_eq_zero
  intro x hx
  obtain ⟨i, _, rfl⟩ := List.mem_map.mp hx
  simp

/- ------------------------------------------------------------------ -/
/- Decoder step: update_pos and next-input selection                   -/
/- (models.py, lines 587-601 and 726-742).                             -/
/- ------------------------------------------------------------------ -/

/-- `update_pos(pos, symbol, max_pos)` from `attention_decoder`
(models.py lines 587-601): without `pred_edits` the position is returned
unchanged; otherwise it is incremented by 1 when the chosen symbol is a
keep or deletion edit (`is_not_ins`), and clamped from above by `max_pos`
(the aligned encoder's true valid length).  The `resize_like` calls only
broadcast batch/beam shapes and are the identity in a per-row model. -/
def update_pos (pred_edits : Bool) (pos : ℚ) (symbol : ℤ) (max_pos : Option ℚ) : ℚ :=
  if pred_edits = false then pos
  else
    let is_not_ins := symbol = KEEP_ID ∨ symbol = DEL_ID
    let pos := pos + (if is_not_ins then (1 : ℚ) else 0)
    match max_pos with
    | some m => min pos m
    | none => pos

/-- Index of the first maximal element of a row of logits (`tf.argmax`). -/
def argmax_list : List ℚ → ℕ
  | [] => 0
  | [_] => 0
  | x :: y :: xs => if list_max (y :: xs) ≤ x then 0 else argmax_list (y :: xs) + 1

theorem argmax_list_getD : ∀ l : List ℚ, l ≠ [] → l.getD (argmax_list l) 0 = list_max l := by
  intro l
  induction l with
  | nil => intro h; exact absurd rfl h
  | cons x t ih =>
    intro _
    cases t with
    | nil => simp [argmax_list, list_max]
    | cons y u =>
      by_cases h : list_max (y :: u) ≤ x
      · simp only [argmax_list, if_pos h, List.getD_cons_zero, list_max]
        exact (max_eq_left h).symm
      · simp only [argmax_list, if_neg h, List.getD_cons_succ, list_max]
        rw [ih (by simp), max_eq_right (le_of_not_le h)]

/-- Inverse-CDF sampling: the index whose cumulative probability interval
contains the uniform draw `u`; models `tf.multinomial` on one row. -/
def inv_cdf : List ℚ → ℚ → ℕ
  | [], _ => 0
  | p :: ps, u => if u < p then 0 else inv_cdf ps (u - p) + 1

theorem inv_cdf_lt_length : ∀ (ps : List ℚ) (u : ℚ), 0 ≤ u → u < ps.sum →
    inv_cdf ps u < ps.length := by
  intro ps
  induction ps with
  | nil =>
    intro u h0 hs
    simp only [List.sum_nil] at hs
    linarith
  | cons p t ih =>
    intro u h0 hs
    by_cases h : u < p
    · simp [inv_cdf, h]
    · simp only [inv_cdf, if_neg h, List.length_cons]
      have := ih (u - p) (by linarith [le_of_not_lt h]) (by
        simp only [List.sum_cons] at hs
        linarith)
      omega

/-- Softmax probabilities of one row of logits (`tf.nn.softmax`, used as the
sampling distribution of `tf.multinomial(tf.log(tf.nn.softmax(output)))`). -/
def softmax_probs (expf : ℚ → ℚ) (logits : List ℚ) : List ℚ :=
  (logits.map expf).map (fun x => x / (logits.map expf).sum)

theorem softmax_probs_sum (expf : ℚ → ℚ) (hexp : ∀ x, 0 < expf x) (logits : List ℚ)
    (hne : logits ≠ []) : (softmax_probs expf logits).sum = 1 := by
  unfold softmax_probs
  rw [sum_map_div]
  apply div_self
  apply ne_of_gt
  apply List.sum_pos
  · intro x hx
    obtain ⟨y, _, rfl⟩ := List.mem_map.mp hx
    exact hexp y
  · simp [hne]

theorem softmax_probs_length (expf : ℚ → ℚ) (logits : List ℚ) :
    (softmax_probs expf logits).length = logits.length := by
  simp [softmax_probs]

/-- A tensor value together with the flag telling whether gradients are
allowed to flow through it; `tf.stop_gradient` clears the flag. -/
structure TFVal (α : Type) where
  val : α
  on_grad_path : Bool

/-- `tf.stop_gradient`. -/
def stop_gradient {α : Type} (x : TFVal α) : TFVal α := { x with on_grad_path := false }

/-- The next-input selection of `_time_step` (models.py lines 726-738):
`use_target = time < time_steps - 1 and random_uniform() >= feed_previous`;
`tf.case([(use_target, target), (not feed_argmax, softmax)], default=argmax)`
takes the first true branch in order; the result passes through
`tf.stop_gradient`.  `u` is the uniform draw consumed by `tf.multinomial`
(inverse-CDF form) and `r` the draw of `tf.random_uniform([])`;
`target_next` is the ground-truth token `inputs.read(time + 1)`. -/
def next_symbol (time time_steps : ℕ) (u r feed_previous : ℚ) (feed_argmax : Bool)
    (target_next : ℕ) (logits : List ℚ) (expf : ℚ → ℚ) : TFVal ℕ :=
  let use_target := ((time : ℤ) < (time_steps : ℤ) - 1) ∧ feed_previous ≤ r
  let sym :=
    if use_target then target_next
    else if feed_argmax = false then inv_cdf (softmax_probs expf logits) u
    else argmax_list logits
  stop_gradient { val := sym, on_grad_path := true }

/- ------------------------------------------------------------------ -/
/- Losses and the chained encoder-decoder loss triple                  -/
/- (models.py, lines 823-961).                                         -/
/- ------------------------------------------------------------------ -/

/-- `sequence_loss` (models.py lines 936-961).  `xent l t` is the sparse
softmax cross-entropy of one logit row `l` against target token `t` (an
opaque nonlinear function of the logits); `rewards` multiply the
cross-entropies elementwise when present (`tf.stop_gradient` on them is the
identity on values); per-example sums are weighted by `weights`, optionally
averaged over time steps (with the 1e-12 guard) and over the batch. -/
def sequence_loss (xent : List ℚ → ℤ → ℚ) (logits : List (List (List ℚ)))
    (targets : List (List ℤ)) (weights : List (List ℚ))
    (rewards : Option (List (List ℚ)))
    (average_across_timesteps average_across_batch : Bool) : ℚ :=
  let crossent := List.zipWith (fun lrow trow => List.zipWith xent lrow trow) logits targets
  let crossent := match rewards with
    | some r => List.zipWith (fun crow rrow => List.zipWith (fun c v => c * v) crow rrow)
        crossent r
    | none => crossent
  let log_perp := List.zipWith
    (fun crow wrow => (List.zipWith (fun c w => c * w) crow wrow).sum) crossent weights
  let log_perp := if average_across_timesteps then
      List.zipWith (fun lp wrow => lp / (wrow.sum + 1 / 10 ^ 12)) log_perp weights
    else log_perp
  let cost := log_perp.sum
  if average_across_batch then cost / (targets.length : ℚ) else cost

/-- The loss triple built by `chained_encoder_decoder`
(models.py lines 823-925): the chaining loss is the sequence loss of the
stage-1 decoder outputs against the stage-1 source (weights from
`get_weights(..., include_first_eos=True)`), the cross-entropy loss is the
sequence loss of the stage-2 outputs against `targets[:, 1:]`; when
`chaining_loss_ratio` is non-zero (Python float truthiness) the weighted
chaining loss is added; the reinforcement and baseline slots are `None`.
`outputs1`/`outputs2` are the opaque decoder logits of the two stages. -/
def chained_losses (xent : List ℚ → ℤ → ℚ) (src0 : List (List ℤ))
    (tgts : List (List ℤ)) (outputs1 outputs2 : List (List (List ℚ)))
    (chaining_loss_weight : ℚ) : Option ℚ × Option ℚ × Option ℚ :=
  let input_weights0 := src0.map (fun row => get_weights row EOS_ID true)
  let target_weights := tgts.map (fun row => get_weights (row.drop 1) EOS_ID true)
  let chaining_loss := sequence_loss xent outputs1 src0 input_weights0 none false true
  let xent_loss := sequence_loss xent outputs2 (tgts.map (List.drop 1)) target_weights
    none false true
  let total := if chaining_loss_weight ≠ 0
    then xent_loss + chaining_loss_weight * chaining_loss else xent_loss
  (some total, none, none)

/- ------------------------------------------------------------------ -/
/- Construction-time configuration checks                              -/
/- (models.py, lines 141-143, 171-173, 217-219, 507).                  -/
/- ------------------------------------------------------------------ -/

/-- The encoder-configuration fields read by the construction-time checks
of `multi_encoder`; Python truthiness maps empty lists and a zero stride to
false. -/
structure EncoderConfig where
  binary : Bool
  convolutions : List ℕ
  maxout_stride : ℕ
  bidir : Bool
  time_pooling : List ℕ
  final_state : String

/-- Graph-construction failures: `raise NotImplementedError` and failed
`assert` statements.  An `Except.error` result models an exception that
aborts construction, leaving no usable partial graph. -/
inductive BuildError where
  | not_implemented : BuildError
  | assertion_failed : String → BuildError

/-- The construction-time checks of `multi_encoder`, in source order:
convolutions on a binary encoder (line 141-143), max-pooling strides on a
binary encoder (line 171-173), and the unidirectional branch with
time-pooling or a `concat_last` final state (line 217-219). -/
def multi_encoder_check (e : EncoderConfig) : Except BuildError Unit :=
  if e.convolutions ≠ [] ∧ e.binary then Except.error BuildError.not_implemented
  else if e.maxout_stride ≠ 0 ∧ e.binary then Except.error BuildError.not_implemented
  else if e.bidir = false ∧ (e.time_pooling ≠ [] ∨ e.final_state = "concat_last") then
    Except.error BuildError.not_implemented
  else Except.ok ()

/-- The decoder-configuration fields read by the assertion of
`attention_decoder`. -/
structure DecoderConfig where
  pred_maxout_layer : Bool
  cell_size : ℕ

/-- The assertion at the top of `attention_decoder` (models.py line 507):
`assert not decoder.pred_maxout_layer or decoder.cell_size % 2 == 0`. -/
def attention_decoder_check (d : DecoderConfig) : Except BuildError Unit :=
  if d.pred_maxout_layer ∧ d.cell_size % 2 ≠ 0 then
    Except.error (BuildError.assertion_failed "cell size must be a multiple of 2")
  else Except.ok ()

/- ------------------------------------------------------------------ -/
/- Claim theorems.                                                     -/
/- ------------------------------------------------------------------ -/

/-- C1: for every row of attention energies (hence for every batch of hidden
states and query states, of any batch/time shape), every valid length with
`1 ≤ len ≤ T`, every temperature, and every positive exponential, the weight
row returned by `global_attention` sums to exactly 1 over the first `len`
positions and is exactly 0 at every position at index `len` or beyond. -/
theorem global_attention_row_normalized (expf : ℚ → ℚ) (temp : ℚ) (e : List ℚ)
    (len : ℕ) (hexp : ∀ x, 0 < expf x) (h1 : 1 ≤ len) (h2 : len ≤ e.length) :
    ((global_attention_weights expf temp e len).take len).sum = 1 ∧
    ∀ i, len ≤ i → (global_attention_weights expf temp e len).getD i 0 = 0 :=
  global_rows_core expf hexp temp e len h1 h2

theorem global_attention_row_normalized_witness :
    (∀ _ : ℚ, (0 : ℚ) < 1) ∧ 1 ≤ 1 ∧ 1 ≤ [(0 : ℚ), 2].length ∧
    (((global_attention_weights (fun _ => 1) 1 [0, 2] 1).take 1).sum = 1 ∧
      ∀ i, 1 ≤ i → (global_attention_weights (fun _ => 1) 1 [0, 2] 1).getD i 0 = 0) :=
  ⟨fun _ => one_pos, le_refl 1, by norm_num,
    global_attention_row_normalized (fun _ => 1) 1 [0, 2] 1 (fun _ => one_pos)
      (le_refl 1) (by norm_num)⟩

/-- C2: for every sequence row whose token at 0-based position `L - 1` is the
end-of-sequence id with no earlier occurrence, the corresponding row of the
mask returned by `get_weights` with `include_first_eos = true` is exactly
`L` ones followed by `T - L` zeros. -/
theorem get_weights_eos_prefix (xs : List ℤ) (eos : ℤ) (L : ℕ) (h1 : 1 ≤ L)
    (h2 : L ≤ xs.length) (heos : xs.getD (L - 1) 0 = eos)
    (hne : ∀ i, i < L - 1 → xs.getD i 0 ≠ eos) :
    get_weights xs eos true
      = List.replicate L 1 ++ List.replicate (xs.length - L) 0 := by
  have hkl : L - 1 < xs.length := by omega
  have heos2 : xs.getD (L - 1) eos = eos := by
    rw [← getD_irrel xs (L - 1) hkl 0 eos]
    exact heos
  have hne2 : ∀ i, i < L - 1 → xs.getD i eos ≠ eos := by
    intro i hi
    rw [← getD_irrel xs i (by omega) 0 eos]
    exact hne i hi
  have hshape := ones_of_first eos xs (L - 1) hkl hne2 heos2
  rw [get_weights_true_eq, hshape]
  have hm : 1 ≤ xs.length - (L - 1) := by omega
  rw [dropLast_ones_zeros _ _ hm,
    show xs.length - (L - 1) - 1 = xs.length - L by omega, ← List.cons_append]
  congr 1
  rw [← List.replicate_succ]
  congr 1
  omega

theorem get_weights_eos_prefix_witness :
    1 ≤ 2 ∧ 2 ≤ [(7 : ℤ), 1, 9].length ∧ ([(7 : ℤ), 1, 9].getD (2 - 1) 0 = 1) ∧
    (∀ i, i < 2 - 1 → [(7 : ℤ), 1, 9].getD i 0 ≠ 1) ∧
    get_weights [(7 : ℤ), 1, 9] 1 true
      = List.replicate 2 1 ++ List.replicate ([(7 : ℤ), 1, 9].length - 2) 0 :=
  ⟨by norm_num, by norm_num, by decide, by decide,
    get_weights_eos_prefix [(7 : ℤ), 1, 9] 1 2 (by norm_num) (by norm_num)
      (by decide) (by decide)⟩

/-- C9: for every sequence row and both values of `include_first_eos`, each
row of the mask returned by `get_weights` is a prefix of ones followed only
by zeros: a 1 at position `i + 1` forces a 1 at position `i`. -/
theorem get_weights_prefix_of_ones (xs : List ℤ) (eos : ℤ) (b : Bool) (i : ℕ)
    (h : (get_weights xs eos b).getD (i + 1) 0 = 1) :
    (get_weights xs eos b).getD i 0 = 1 := by
  obtain ⟨k, m, hshape⟩ := get_weights_shape xs eos b
  rw [hshape, getD_rep_append] at h
  rw [hshape, getD_rep_append]
  by_cases hik : i + 1 < k
  · rw [if_pos (by omega)]
  · rw [if_neg hik] at h
    norm_num at h

theorem get_weights_prefix_of_ones_witness :
    ((get_weights [(7 : ℤ), 7, 1] 1 false).getD (0 + 1) 0 = 1) ∧
    ((get_weights [(7 : ℤ), 7, 1] 1 false).getD 0 0 = 1) :=
  ⟨by rw [get_weights_false_eq]; norm_num [ones_until_eos],
   get_weights_prefix_of_ones [(7 : ℤ), 7, 1] 1 false 0
     (by rw [get_weights_false_eq]; norm_num [ones_until_eos])⟩

/-- C10: on the same sampled row, the baseline mask
(`include_first_eos = false`) is pointwise at most the reinforcement mask
(`include_first_eos = true`); when the row contains the end-of-sequence
token the two masks differ exactly at its first occurrence (which the
reinforcement mask counts and the baseline mask excludes), and rows without
it give equal masks. -/
theorem baseline_vs_reinforce_masks (xs : List ℤ) (eos : ℤ) (hne : xs ≠ []) :
    (∀ i, (get_weights xs eos false).getD i 0 ≤ (get_weights xs eos true).getD i 0) ∧
    (eos ∈ xs →
      (get_weights xs eos true).getD (first_eos xs eos) 0 = 1 ∧
      (get_weights xs eos false).getD (first_eos xs eos) 0 = 0 ∧
      ∀ i, i ≠ first_eos xs eos →
        (get_weights xs eos false).getD i 0 = (get_weights xs eos true).getD i 0) ∧
    (eos ∉ xs → get_weights xs eos false = get_weights xs eos true) := by
  by_cases hm : eos ∈ xs
  · obtain ⟨hp_lt, hp_eos, hp_ne⟩ := first_eos_spec eos xs hm
    have h0 := ones_of_first eos xs (first_eos xs eos) hp_lt hp_ne hp_eos
    have hw0 : get_weights xs eos false
        = List.replicate (first_eos xs eos) 1
          ++ List.replicate (xs.length - first_eos xs eos) 0 := by
      rw [get_weights_false_eq, h0]
    have hm1 : 1 ≤ xs.length - first_eos xs eos := by omega
    have hw1 : get_weights xs eos true
        = List.replicate (first_eos xs eos + 1) 1
          ++ List.replicate (xs.length - first_eos xs eos - 1) 0 := by
      rw [get_weights_true_eq, h0, dropLast_ones_zeros _ _ hm1, ← List.cons_append,
        ← List.replicate_succ]
    refine ⟨?_, fun _ => ⟨?_, ?_, ?_⟩, fun hcon => absurd hm hcon⟩
    · intro i
      rw [hw0, hw1, getD_rep_append, getD_rep_append]
      by_cases hlt : i < first_eos xs eos
      · rw [if_pos hlt, if_pos (by omega)]
      · rw [if_neg hlt]
        by_cases hlt2 : i < first_eos xs eos + 1
        · rw [if_pos hlt2]; norm_num
        · rw [if_neg hlt2]
    · rw [hw1, getD_rep_append, if_pos (by omega)]
    · rw [hw0, getD_rep_append, if_neg (by omega)]
    · intro i hip
      rw [hw0, hw1, getD_rep_append, getD_rep_append]
      by_cases hlt : i < first_eos xs eos
      · rw [if_pos hlt, if_pos (by omega)]
      · rw [if_neg hlt, if_neg (by omega)]
  · have h0 := ones_no_eos eos xs hm
    have hw0 : get_weights xs eos false = List.replicate xs.length 1 := by
      rw [get_weights_false_eq, h0]
    obtain ⟨n, hn⟩ : ∃ n, xs.length = n + 1 :=
      ⟨xs.length - 1, by have := List.length_pos.mpr hne; omega⟩
    have hw1 : get_weights xs eos true = List.replicate xs.length 1 := by
      rw [get_weights_true_eq, h0, hn, dropLast_rep_ones, ← List.replicate_succ]
    refine ⟨?_, fun hcon => absurd hcon hm, fun _ => by rw [hw0, hw1]⟩
    intro i
    rw [hw0, hw1]

theorem baseline_vs_reinforce_masks_witness :
    ([(5 : ℤ), 1, 9] ≠ []) ∧
    ((∀ i, (get_weights [(5 : ℤ), 1, 9] 1 false).getD i 0
        ≤ (get_weights [(5 : ℤ), 1, 9] 1 true).getD i 0) ∧
    ((1 : ℤ) ∈ [(5 : ℤ), 1, 9] →
      (get_weights [(5 : ℤ), 1, 9] 1 true).getD (first_eos [(5 : ℤ), 1, 9] 1) 0 = 1 ∧
      (get_weights [(5 : ℤ), 1, 9] 1 false).getD (first_eos [(5 : ℤ), 1, 9] 1) 0 = 0 ∧
      ∀ i, i ≠ first_eos [(5 : ℤ), 1, 9] 1 →
        (get_weights [(5 : ℤ), 1, 9] 1 false).getD i 0
          = (get_weights [(5 : ℤ), 1, 9] 1 true).getD i 0) ∧
    ((1 : ℤ) ∉ [(5 : ℤ), 1, 9] →
      get_weights [(5 : ℤ), 1, 9] 1 false = get_weights [(5 : ℤ), 1, 9] 1 true)) :=
  ⟨by decide, baseline_vs_reinforce_masks [(5 : ℤ), 1, 9] 1 (by decide)⟩

/-- C3 counterexample: with `pred_edits`, a deletion symbol does advance the
alignment position (the claim states it does not): at position 0 with valid
length 5, choosing `DEL_ID` yields position 1, not 0. -/
theorem update_pos_del_advances :
    update_pos true 0 DEL_ID (some 5) = 1 ∧ (1 : ℚ) ≠ 0 := by
  constructor
  · norm_num [update_pos, KEEP_ID, DEL_ID]
  · norm_num

/-- C3 (amended): with `pred_edits`, `update_pos` increments the alignment
position by 1 when the chosen symbol is the keep or the deletion marker and
leaves it unchanged for any other symbol (insertions), the result being
clamped from above by the encoder's true valid length; without `pred_edits`
the position is returned unchanged. -/
theorem update_pos_spec (pos m : ℚ) (symbol : ℤ) :
    update_pos true pos symbol (some m)
      = min (pos + (if symbol = KEEP_ID ∨ symbol = DEL_ID then (1 : ℚ) else 0)) m ∧
    update_pos true pos KEEP_ID (some m) = min (pos + 1) m ∧
    update_pos true pos DEL_ID (some m) = min (pos + 1) m ∧
    update_pos true pos INS_ID (some m) = min pos m ∧
    update_pos true pos symbol (some m) ≤ m ∧
    update_pos false pos symbol (some m) = pos := by
  refine ⟨rfl, ?_, ?_, ?_, ?_, rfl⟩
  · norm_num [update_pos, KEEP_ID, DEL_ID]
  · norm_num [update_pos, KEEP_ID, DEL_ID]
  · norm_num [update_pos, KEEP_ID, DEL_ID, INS_ID]
  · simp only [update_pos]
    norm_num

/-- C4: at a decoder time step, when the step is not the last one and the
uniform draw is at least `feed_previous`, the next input symbol is the
ground-truth token at `time + 1`; otherwise it is an inverse-CDF
(multinomial) sample of the softmax of the current logits when
`feed_argmax` is false, and the argmax of the current logits (an index
carrying the maximal logit) when `feed_argmax` is true; the sampled index
is a valid vocabulary index, and in all cases the chosen symbol passes
through `tf.stop_gradient` and so is excluded from gradient flow. -/
theorem next_symbol_selection (time time_steps : ℕ) (u r feed_previous : ℚ)
    (feed_argmax : Bool) (target_next : ℕ) (logits : List ℚ) (expf : ℚ → ℚ) :
    ((((time : ℤ) < (time_steps : ℤ) - 1) ∧ feed_previous ≤ r) →
      (next_symbol time time_steps u r feed_previous feed_argmax target_next logits expf).val
        = target_next) ∧
    (¬(((time : ℤ) < (time_steps : ℤ) - 1) ∧ feed_previous ≤ r) → feed_argmax = false →
      (next_symbol time time_steps u r feed_previous feed_argmax target_next logits expf).val
        = inv_cdf (softmax_probs expf logits) u) ∧
    (¬(((time : ℤ) < (time_steps : ℤ) - 1) ∧ feed_previous ≤ r) → feed_argmax = true →
      (next_symbol time time_steps u r feed_previous feed_argmax target_next logits expf).val
        = argmax_list logits ∧
      ∀ y ∈ logits, y ≤ logits.getD (argmax_list logits) 0) ∧
    ((∀ x, 0 < expf x) → logits ≠ [] → 0 ≤ u → u < 1 → feed_argmax = false →
      ¬(((time : ℤ) < (time_steps : ℤ) - 1) ∧ feed_previous ≤ r) →
      (next_symbol time time_steps u r feed_previous feed_argmax target_next logits expf).val
        < logits.length) ∧
    (next_symbol time time_steps u r feed_previous feed_argmax target_next logits expf).on_grad_path
      = false := by
  refine ⟨?_, ?_, ?_, ?_, rfl⟩
  · intro h
    simp [next_symbol, stop_gradient, h]
  · intro h hf
    simp [next_symbol, stop_gradient, h, hf]
  · intro h hf
    constructor
    · simp [next_symbol, stop_gradient, h, hf]
    · intro y hy
      rw [argmax_list_getD logits (List.ne_nil_of_mem hy)]
      exact le_list_max logits y hy
  · intro hexp hne hu0 hu1 hf h
    have hval : (next_symbol time time_steps u r feed_previous feed_argmax target_next
        logits expf).val = inv_cdf (softmax_probs expf logits) u := by
      simp [next_symbol, stop_gradient, h, hf]
    rw [hval, ← softmax_probs_length expf logits]
    apply inv_cdf_lt_length _ _ hu0
    rw [softmax_probs_sum expf hexp logits hne]
    exact hu1

theorem next_symbol_selection_witness :
    (((0 : ℤ) < (3 : ℤ) - 1) ∧ (0 : ℚ) ≤ 1) ∧
    (next_symbol 0 3 0 1 0 true 9 [1, 2] (fun _ => 1)).val = 9 :=
  ⟨⟨by norm_num, by norm_num⟩,
    (next_symbol_selection 0 3 0 1 0 true 9 [1, 2] (fun _ => 1)).1
      ⟨by norm_num, by norm_num⟩⟩

/-- C5 counterexample: the `none` variant is reachable through the attention
dispatcher and returns an all-zero weight row, whose sum over the valid
positions is 0, not 1. -/
theorem attention_none_weights_zero :
    ((attention_weights "none" (fun _ => 1) 1 [0, 0, 0] 2 none 0 0).take 2).sum = 0 ∧
    (0 : ℚ) ≠ 1 := by
  constructor
  · show ((no_attention_weights 3).take 2).sum = 0
    norm_num [no_attention_weights]
  · norm_num

/-- C5 (amended): through the attention dispatcher, the `global`, `average`
and `last_state` variants, and the `local` variant with an externally
supplied (non-negative) aligned position, return weight rows that sum to 1
over the valid positions `0..len-1` and are exactly 0 on padded positions
(`1 ≤ len ≤ T`, positive exponential); the `none` variant instead returns
the all-zero row (its weights are not a probability distribution, and the
learned-position `local` mode does not renormalize after its Gaussian
factor, see `local_learned_weights`). -/
theorem attention_dispatch_normalized (expf : ℚ → ℚ) (temp : ℚ) (e : List ℚ)
    (len : ℕ) (p : ℚ) (window : ℕ) (sig : ℚ)
    (hexp : ∀ x, 0 < expf x) (hp : 0 ≤ p) (h1 : 1 ≤ len) (h2 : len ≤ e.length) :
    (((attention_weights "global" expf temp e len none window sig).take len).sum = 1 ∧
      ∀ i, len ≤ i →
        (attention_weights "global" expf temp e len none window sig).getD i 0 = 0) ∧
    (((attention_weights "average" expf temp e len none window sig).take len).sum = 1 ∧
      ∀ i, len ≤ i →
        (attention_weights "average" expf temp e len none window sig).getD i 0 = 0) ∧
    (((attention_weights "last_state" expf temp e len none window sig).take len).sum = 1 ∧
      ∀ i, len ≤ i →
        (attention_weights "last_state" expf temp e len none window sig).getD i 0 = 0) ∧
    (((attention_weights "local" expf temp e len (some p) window sig).take len).sum = 1 ∧
      ∀ i, len ≤ i →
        (attention_weights "local" expf temp e len (some p) window sig).getD i 0 = 0) ∧
    attention_weights "none" expf temp e len none window sig
      = List.replicate e.length 0 := by
  have hg : attention_weights "global" expf temp e len none window sig
      = global_attention_weights expf temp e len := rfl
  have ha : attention_weights "average" expf temp e len none window sig
      = average_attention_weights len e.length := rfl
  have hl : attention_weights "last_state" expf temp e len none window sig
      = last_state_attention_weights len e.length := rfl
  have hlo : attention_weights "local" expf temp e len (some p) window sig
      = local_supervised_weights p len e.length := rfl
  have hn : attention_weights "none" expf temp e len none window sig
      = no_attention_weights e.length := rfl
  rw [hg, ha, hl, hlo, hn]
  exact ⟨global_rows_core expf hexp temp e len h1 h2,
    average_rows_core len e.length h1 h2,
    last_state_rows_core len e.length h1 h2,
    local_pos_rows_core p len e.length hp h1 h2,
    rfl⟩

theorem attention_dispatch_normalized_witness :
    (∀ _ : ℚ, (0 : ℚ) < 1) ∧ (0 : ℚ) ≤ 0 ∧ 1 ≤ 1 ∧ 1 ≤ [(0 : ℚ), 2].length ∧
    ((attention_weights "global" (fun _ => 1) 1 [0, 2] 1 none 0 0).take 1).sum = 1 ∧
    ((attention_weights "local" (fun _ => 1) 1 [0, 2] 1 (some 0) 0 0).take 1).sum = 1 ∧
    attention_weights "none" (fun _ => 1) 1 [0, 2] 1 none 0 0 = List.replicate 2 0 :=
  ⟨fun _ => one_pos, le_refl 0, le_refl 1, by norm_num,
    (attention_dispatch_normalized (fun _ => 1) 1 [0, 2] 1 0 0 0 (fun _ => one_pos)
      (le_refl 0) (le_refl 1) (by norm_num)).1.1,
    (attention_dispatch_normalized (fun _ => 1) 1 [0, 2] 1 0 0 0 (fun _ => one_pos)
      (le_refl 0) (le_refl 1) (by norm_num)).2.2.2.1.1,
    (attention_dispatch_normalized (fun _ => 1) 1 [0, 2] 1 0 0 0 (fun _ => one_pos)
      (le_refl 0) (le_refl 1) (by norm_num)).2.2.2.2⟩

/-- C6 counterexample: the division of `global_attention` is not protected:
for an all-padding row (valid length 0) its denominator is exactly 0 — no
clamping and no additive epsilon is applied to it (with the clamp or the
epsilon the spec describes it would be positive); likewise the divisor of
`average_attention` is the raw valid length, which is 0 for such a row. -/
theorem global_attention_denom_unguarded :
    global_attention_denom (fun _ => 1) 1 [0] 0 = 0 ∧
    average_attention_denom 0 = 0 := by
  constructor
  · exact global_denom_zero_len (fun _ => 1) 1 [0]
  · norm_num [average_attention_denom]

/-- C6 (amended): `global_attention` subtracts the row maximum before
exponentiation (every stabilized energy is ≤ 0), and the stand-alone
`softmax` helper clamps its denominator into `[10e-37, 10e+37]` before
dividing, so that division never has a zero denominator; but the divisions
of `global_attention` and `average_attention` themselves are unguarded:
no epsilon or clamp is applied, and for an all-padding row (valid length 0)
both denominators are exactly 0.  (The `softmax` helper performs no row-max
subtraction; in exact arithmetic this changes no weight value.) -/
theorem attention_numerics (expf : ℚ → ℚ) (temp : ℚ) (e : List ℚ) (len : ℕ)
    (logits : List ℚ) (mask : Option (List ℚ)) :
    (∀ x ∈ stabilize e, x ≤ 0) ∧
    (10 / 10 ^ 37 ≤ softmax_denom expf logits mask ∧
      softmax_denom expf logits mask ≤ 10 * 10 ^ 37 ∧
      softmax_denom expf logits mask ≠ 0) ∧
    (len = 0 → global_attention_denom expf temp e len = 0) ∧
    (len = 0 → average_attention_denom len = 0) := by
  refine ⟨stabilize_nonpos e, softmax_denom_bounds expf logits mask, ?_, ?_⟩
  · intro h
    rw [h]
    exact global_denom_zero_len expf temp e
  · intro h
    rw [h]
    norm_num [average_attention_denom]

theorem attention_numerics_witness :
    global_attention_denom (fun _ => 1) 1 [0, 0] 0 = 0 ∧
    softmax_denom (fun _ => 1) [0] none ≠ 0 :=
  ⟨(attention_numerics (fun _ => 1) 1 [0, 0] 0 [0] none).2.2.1 rfl,
   (attention_numerics (fun _ => 1) 1 [0, 0] 0 [0] none).2.1.2.2⟩

/-- C7: `chained_encoder_decoder` returns a loss triple whose reinforcement
and baseline entries are null, and whose first entry is the second-stage
cross-entropy sequence loss plus `chaining_loss_ratio` times the stage-1
chaining loss whenever the ratio is non-zero. -/
theorem chained_losses_spec (xent : List ℚ → ℤ → ℚ) (src0 : List (List ℤ))
    (tgts : List (List ℤ)) (outputs1 outputs2 : List (List (List ℚ)))
    (w : ℚ) (hw : w ≠ 0) :
    (chained_losses xent src0 tgts outputs1 outputs2 w).2.1 = none ∧
    (chained_losses xent src0 tgts outputs1 outputs2 w).2.2 = none ∧
    (chained_losses xent src0 tgts outputs1 outputs2 w).1
      = some (sequence_loss xent outputs2 (tgts.map (List.drop 1))
          (tgts.map (fun row => get_weights (row.drop 1) EOS_ID true)) none false true
        + w * sequence_loss xent outputs1 src0
            (src0.map (fun row => get_weights row EOS_ID true)) none false true) := by
  refine ⟨rfl, rfl, ?_⟩
  simp only [chained_losses]
  rw [if_pos hw]

theorem chained_losses_spec_witness :
    (1 : ℚ) ≠ 0 ∧
    (chained_losses (fun _ _ => 0) ([] : List (List ℤ)) [] [] [] 1).2.1 = none ∧
    (chained_losses (fun _ _ => 0) ([] : List (List ℤ)) [] [] [] 1).2.2 = none ∧
    (chained_losses (fun _ _ => 0) ([] : List (List ℤ)) [] [] [] 1).1
      = some (sequence_loss (fun _ _ => 0) []
          (List.map (List.drop 1) ([] : List (List ℤ)))
          (List.map (fun row : List ℤ => get_weights (row.drop 1) EOS_ID true) [])
          none false true
        + 1 * sequence_loss (fun _ _ => 0) [] ([] : List (List ℤ))
            (List.map (fun row : List ℤ => get_weights row EOS_ID true) [])
            none false true) :=
  ⟨one_ne_zero,
    (chained_losses_spec (fun _ _ => 0) [] [] [] [] 1 one_ne_zero).1,
    (chained_losses_spec (fun _ _ => 0) [] [] [] [] 1 one_ne_zero).2.1,
    (chained_losses_spec (fun _ _ => 0) [] [] [] [] 1 one_ne_zero).2.2⟩

/-- C8: unsupported configurations fail at graph-construction time with no
usable partial graph: convolutions on a binary (feature-valued) encoder
raise `NotImplementedError`; time-pooling, or a `concat_last` final state,
with a unidirectional encoder raises `NotImplementedError`; and a maxout
output layer with an odd decoder cell size fails the assertion of
`attention_decoder`. -/
theorem construction_failures (e : EncoderConfig) (d : DecoderConfig) :
    (e.convolutions ≠ [] → e.binary = true →
      multi_encoder_check e = Except.error BuildError.not_implemented) ∧
    (e.bidir = false → (e.time_pooling ≠ [] ∨ e.final_state = "concat_last") →
      multi_encoder_check e = Except.error BuildError.not_implemented) ∧
    (d.pred_maxout_layer = true → d.cell_size % 2 = 1 →
      attention_decoder_check d
        = Except.error (BuildError.assertion_failed "cell size must be a multiple of 2")) := by
  refine ⟨?_, ?_, ?_⟩
  · intro h1 h2
    unfold multi_encoder_check
    rw [if_pos ⟨h1, h2⟩]
  · intro h1 h2
    unfold multi_encoder_check
    by_cases hc : e.convolutions ≠ [] ∧ e.binary = true
    · rw [if_pos hc]
    · rw [if_neg hc]
      by_cases hms : e.maxout_stride ≠ 0 ∧ e.binary = true
      · rw [if_pos hms]
      · rw [if_neg hms, if_pos ⟨h1, h2⟩]
  · intro h1 h2
    unfold attention_decoder_check
    rw [if_pos ⟨h1, by omega⟩]

theorem construction_failures_witness :
    multi_encoder_check ⟨true, [3], 0, true, [], "last"⟩
      = Except.error BuildError.not_implemented ∧
    multi_encoder_check ⟨false, [], 0, false, [2], "last"⟩
      = Except.error BuildError.not_implemented ∧
    attention_decoder_check ⟨true, 3⟩
      = Except.error (BuildError.assertion_failed "cell size must be a multiple of 2") :=
  ⟨(construction_failures ⟨true, [3], 0, true, [], "last"⟩ ⟨true, 3⟩).1 (by simp) rfl,
   (construction_failures ⟨false, [], 0, false, [2], "last"⟩ ⟨true, 3⟩).2.1 rfl
     (Or.inl (by simp)),
   (construction_failures ⟨true, [3], 0, true, [], "last"⟩ ⟨true, 3⟩).2.2 rfl rfl⟩
